import Mathlib

/-!
Shallow embedding of `src/color_models.py` (OCDC color-distance models).

Images are modelled as functions `ℕ → Fin R → Fin C → α` indexed
`[band, row, col]`, together with an explicit band count, mirroring the
numpy arrays the Python code works on.  The pixel arithmetic is carried
out exactly over `ℚ`; the final `np.sqrt` step of the Mahalanobis map is
`Real.sqrt` on the rational value.  Fallible code paths (`raise`) are
modelled with `Except`.
-/

namespace OCDC

open Matrix

/-- Errors raised in `color_models.py`: the band-count check of
`ReferencePixels.generate_pixel_mask`, the sample-size check of
`ReferencePixels.show_statistics_of_pixel_mask`, and scoring a model whose
statistics were never computed (Python raises `AttributeError` there; the
design documents call it `NotFittedError`). -/
inductive ModelError where
  | maskBandCountError
  | insufficientSampleError
  | notFittedError
  deriving DecidableEq

/-- Flat raster index of spatial position `(r, c)` in a row-major
`R × C` grid, as used by `np.reshape` on `[band, row, col]` arrays. -/
def flatIdx {R C : ℕ} (r : Fin R) (c : Fin C) : Fin (R * C) :=
  ⟨r.1 * C + c.1, by
    have h1 : r.1 * C + c.1 < (r.1 + 1) * C := by
      have := c.isLt
      calc r.1 * C + c.1 < r.1 * C + C := by omega
        _ = (r.1 + 1) * C := by ring
    have h2 : (r.1 + 1) * C ≤ R * C := Nat.mul_le_mul_right C r.isLt
    omega⟩

/-- Row recovered from a flat raster index (`p / C`). -/
def flatRow {R C : ℕ} (p : Fin (R * C)) : Fin R :=
  ⟨p.1 / C, by
    rcases Nat.eq_zero_or_pos C with h | h
    · subst h
      exact absurd p.isLt (by simp)
    · exact (Nat.div_lt_iff_lt_mul h).mpr p.isLt⟩

/-- Column recovered from a flat raster index (`p % C`). -/
def flatCol {R C : ℕ} (p : Fin (R * C)) : Fin C :=
  ⟨p.1 % C, by
    rcases Nat.eq_zero_or_pos C with h | h
    · subst h
      exact absurd p.isLt (by simp)
    · exact Nat.mod_lt _ h⟩

theorem flatRow_flatIdx {R C : ℕ} (r : Fin R) (c : Fin C) :
    flatRow (flatIdx r c) = r := by
  apply Fin.ext
  show (r.1 * C + c.1) / C = r.1
  rw [add_comm, Nat.add_mul_div_right _ _ (by have := c.isLt; omega : 0 < C),
    Nat.div_eq_of_lt c.isLt, zero_add]

theorem flatCol_flatIdx {R C : ℕ} (r : Fin R) (c : Fin C) :
    flatCol (flatIdx r c) = c := by
  apply Fin.ext
  show (r.1 * C + c.1) % C = c.1
  rw [add_comm, Nat.add_mul_mod_self_right, Nat.mod_eq_of_lt c.isLt]

theorem flatIdx_flatRow_flatCol {R C : ℕ} (p : Fin (R * C)) :
    flatIdx (flatRow p) (flatCol p) = p := by
  apply Fin.ext
  show p.1 / C * C + p.1 % C = p.1
  rw [mul_comm]
  exact Nat.div_add_mod p.1 C

/-- Default `lower_range` argument of `ReferencePixels.generate_pixel_mask`. -/
def default_lower_range : ℤ × ℤ × ℤ := (245, 0, 0)

/-- Default `higher_range` argument of `ReferencePixels.generate_pixel_mask`. -/
def default_higher_range : ℤ × ℤ × ℤ := (256, 10, 10)

/-- Embeds `ReferencePixels.generate_pixel_mask` (src/color_models.py:40-57), the part
that turns the annotation image into a boolean pixel mask.  A 3- or 4-band
annotation marks a pixel exactly when each of its first three band values is
strictly between the corresponding entries of `lower_range` and
`higher_range`; a 1-band annotation marks a pixel when its value exceeds 127;
any other band count raises. -/
def generate_pixel_mask {R C : ℕ} (nbands : ℕ) (mask : ℕ → Fin R → Fin C → ℤ)
    (lower_range higher_range : ℤ × ℤ × ℤ) :
    Except ModelError (Fin R → Fin C → Bool) :=
  if nbands = 3 ∨ nbands = 4 then
    Except.ok (fun r c =>
      decide (lower_range.1 < mask 0 r c) && decide (mask 0 r c < higher_range.1) &&
      decide (lower_range.2.1 < mask 1 r c) && decide (mask 1 r c < higher_range.2.1) &&
      decide (lower_range.2.2 < mask 2 r c) && decide (mask 2 r c < higher_range.2.2))
  else if nbands = 1 then
    Except.ok (fun r c => decide ((127 : ℤ) < mask 0 r c))
  else
    Except.error ModelError.maskBandCountError

/-- All spatial positions of an `R × C` grid in raster (row-major) scan
order, the order in which numpy boolean indexing with a 2-D mask visits
cells. -/
def rasterPositions (R C : ℕ) : List (Fin R × Fin C) :=
  (List.finRange (R * C)).map (fun p => (flatRow p, flatCol p))

/-- The positions selected by `pixel_mask == 255`, in raster scan order. -/
def maskedPositions {R C : ℕ} (pm : Fin R → Fin C → Bool) :
    List (Fin R × Fin C) :=
  (rasterPositions R C).filter (fun rc => pm rc.1 rc.2)

/-- Embeds `self.values` as built at src/color_models.py:58-59:
`reference_image[:, pixel_mask == 255]` followed by row selection
`values[bands_to_use, :]`.  Row `i` holds the values of the `i`-th selected
band at the masked positions, columns in raster scan order. -/
def sample_values {R C : ℕ} (ref : ℕ → Fin R → Fin C → ℚ) (bands : List ℕ)
    (pm : Fin R → Fin C → Bool) : List (List ℚ) :=
  bands.map (fun b => (maskedPositions pm).map (fun rc => ref b rc.1 rc.2))

/-- Default band selection `tuple(range(reference_image.shape[0] - 1))`
(src/color_models.py:27-28). -/
def default_bands (nbands : ℕ) : List ℕ :=
  List.range (nbands - 1)

/-- Embeds `min_annotated_pixels` (src/color_models.py:63). -/
def min_annotated_pixels : ℕ := 100

/-- Embeds `ReferencePixels.initialize` after image loading (src/color_models.py:24-30
plus the called helpers): choose the band selection (defaulting to all bands
but the last), derive the pixel mask, extract the sample, and fail with
`insufficientSampleError` when the number of annotated pixels
(`values.shape[1]`) is at most `min_annotated_pixels`.  Returns the chosen
band selection together with the extracted sample. -/
def referencePixels_init {R C : ℕ} (ref_nbands : ℕ)
    (ref : ℕ → Fin R → Fin C → ℚ) (mask_nbands : ℕ)
    (mask : ℕ → Fin R → Fin C → ℤ) (bands_to_use : Option (List ℕ)) :
    Except ModelError (List ℕ × List (List ℚ)) :=
  let bands := bands_to_use.getD (default_bands ref_nbands)
  match generate_pixel_mask mask_nbands mask default_lower_range default_higher_range with
  | Except.error e => Except.error e
  | Except.ok pm =>
    let values := sample_values ref bands pm
    if (maskedPositions pm).length ≤ min_annotated_pixels then
      Except.error ModelError.insufficientSampleError
    else
      Except.ok (bands, values)

/-- Embeds `np.average(values, axis=1)` on a `(B, N)` sample. -/
def np_average {B N : ℕ} (v : Fin B → Fin N → ℚ) : Fin B → ℚ :=
  fun i => (∑ p, v i p) / (N : ℚ)

/-- Embeds `np.cov(values)` on a `(B, N)` sample: the sample covariance matrix with
denominator `N - 1` (numpy's default `ddof=1`). -/
def np_cov {B N : ℕ} (v : Fin B → Fin N → ℚ) : Matrix (Fin B) (Fin B) ℚ :=
  Matrix.of fun i j =>
    (∑ p, (v i p - np_average v i) * (v j p - np_average v j)) / ((N : ℚ) - 1)

/-- Embeds `np.linalg.inv`: in exact arithmetic, `det⁻¹ • adjugate`, which is the
matrix inverse whenever the determinant is nonzero. -/
def np_linalg_inv {n : ℕ} (A : Matrix (Fin n) (Fin n) ℚ) :
    Matrix (Fin n) (Fin n) ℚ :=
  A.det⁻¹ • A.adjugate

/-- Embeds `np.reshape(image[bands_to_use, :, :], (len(bands_to_use), -1)).transpose()`
(src/color_models.py:135): row `p` is the vector of pixel `p`'s values at the
selected bands, in selection order, pixels enumerated in raster scan order. -/
def image_pixels {R C : ℕ} (bands : List ℕ) (image : ℕ → Fin R → Fin C → ℚ) :
    Fin (R * C) → Fin bands.length → ℚ :=
  fun p b => image (bands.get b) (flatRow p) (flatCol p)

/-- The value `distance` computed at src/color_models.py:136-139 for the flat
pixel `p`, before `np.sqrt`: with `diff = pixels - average` and
`inv_cov = np.linalg.inv(covariance)`, the row-wise sum over bands of
`diff * (diff @ inv_cov)`. -/
def mahalanobis_sq {R C : ℕ} (bands : List ℕ)
    (average : Fin bands.length → ℚ)
    (covariance : Matrix (Fin bands.length) (Fin bands.length) ℚ)
    (image : ℕ → Fin R → Fin C → ℚ) (p : Fin (R * C)) : ℚ :=
  let pixels := image_pixels bands image
  let inv_cov := np_linalg_inv covariance
  let diff : Fin (R * C) → Fin bands.length → ℚ :=
    fun q b => pixels q b - average b
  ∑ k, diff p k * (∑ j, diff p j * inv_cov j k)

/-- Embeds `MahalanobisDistance.calculate_distance` (src/color_models.py:129-142)
given the fitted statistics `average` and `covariance`: per flat pixel the
code computes `diff * (diff @ inv_cov)` summed over bands, takes `np.sqrt`,
and reshapes the flat result to `[1, rows, cols]`. -/
noncomputable def mahalanobis_distance_map {R C : ℕ} (bands : List ℕ)
    (average : Fin bands.length → ℚ)
    (covariance : Matrix (Fin bands.length) (Fin bands.length) ℚ)
    (image : ℕ → Fin R → Fin C → ℚ) : Fin 1 → Fin R → Fin C → ℝ :=
  fun _ r c =>
    Real.sqrt ((mahalanobis_sq bands average covariance image (flatIdx r c) : ℚ) : ℝ)

/-- Modelled from the spec: `sklearn.mixture.GaussianMixture.score_samples`
(called at src/color_models.py:169; sklearn is an external collaborator, its
source is not part of this repository) computes the per-sample log-likelihood
of each input row independently under the fitted mixture; it is modelled
here as an arbitrary per-row scoring function `score_samples` applied to
each pixel's selected-band vector. -/
def gmm_distance_map {R C : ℕ} (bands : List ℕ)
    (score_samples : (Fin bands.length → ℚ) → ℝ)
    (image : ℕ → Fin R → Fin C → ℚ) : Fin 1 → Fin R → Fin C → ℝ :=
  let pixels := image_pixels bands image
  fun _ r c => score_samples (pixels (flatIdx r c))

/-- The statistics attributes set by
`MahalanobisDistance.calculate_statistics`; `none` models a
`MahalanobisDistance` object on which `initialize` was never run, so that
`self.average` and `self.covariance` are unset. -/
structure MahalanobisModel (bands : List ℕ) where
  fitted : Option ((Fin bands.length → ℚ) ×
    Matrix (Fin bands.length) (Fin bands.length) ℚ)

/-- A freshly constructed model: `__init__` (src/color_models.py:92-94,
122-123) only builds the reference pixels and never computes statistics. -/
def MahalanobisModel.init (bands : List ℕ) : MahalanobisModel bands :=
  ⟨none⟩

/-- Embeds `MahalanobisDistance.calculate_statistics` (src/color_models.py:125-127):
store the sample covariance and the per-band average of the reference
pixel values. -/
def MahalanobisModel.calculate_statistics {bands : List ℕ} {N : ℕ}
    (_ : MahalanobisModel bands) (values : Fin bands.length → Fin N → ℚ) :
    MahalanobisModel bands :=
  ⟨some (np_average values, np_cov values)⟩

/-- Embeds `MahalanobisDistance.calculate_distance` at the object level: reading
`self.covariance` / `self.average` on an unfitted instance fails (Python's
`AttributeError`, the design's `NotFittedError`); on a fitted instance it
returns the Mahalanobis distance map. -/
noncomputable def MahalanobisModel.calculate_distance {bands : List ℕ} {R C : ℕ}
    (m : MahalanobisModel bands) (image : ℕ → Fin R → Fin C → ℚ) :
    Except ModelError (Fin 1 → Fin R → Fin C → ℝ) :=
  match m.fitted with
  | none => Except.error ModelError.notFittedError
  | some (avg, cov) => Except.ok (mahalanobis_distance_map bands avg cov image)

/-- Raster index of a spatial position: its rank in row-major scan order. -/
def rasterIdx {R C : ℕ} (rc : Fin R × Fin C) : ℕ :=
  rc.1.1 * C + rc.2.1

theorem rasterIdx_flat {R C : ℕ} (p : Fin (R * C)) :
    rasterIdx (flatRow p, flatCol p) = p.1 := by
  have h := congrArg Fin.val (flatIdx_flatRow_flatCol p)
  simpa [rasterIdx, flatIdx] using h

theorem mem_rasterPositions {R C : ℕ} (rc : Fin R × Fin C) :
    rc ∈ rasterPositions R C := by
  have h : rc = (flatRow (flatIdx rc.1 rc.2), flatCol (flatIdx rc.1 rc.2)) := by
    rw [flatRow_flatIdx, flatCol_flatIdx]
  rw [h, rasterPositions]
  exact List.mem_map_of_mem _ (List.mem_finRange _)

theorem pairwise_rasterPositions {R C : ℕ} :
    (rasterPositions R C).Pairwise (fun a b => rasterIdx a < rasterIdx b) := by
  refine List.Pairwise.map _ ?_ (List.pairwise_lt_finRange (R * C))
  intro a b hab
  rw [rasterIdx_flat, rasterIdx_flat]
  exact hab

theorem nodup_rasterPositions {R C : ℕ} : (rasterPositions R C).Nodup := by
  refine (pairwise_rasterPositions).imp ?_
  intro a b h heq
  rw [heq] at h
  exact lt_irrefl _ h

theorem mem_maskedPositions {R C : ℕ} (pm : Fin R → Fin C → Bool)
    (rc : Fin R × Fin C) : rc ∈ maskedPositions pm ↔ pm rc.1 rc.2 = true := by
  rw [maskedPositions, List.mem_filter]
  simp [mem_rasterPositions]

theorem pairwise_maskedPositions {R C : ℕ} (pm : Fin R → Fin C → Bool) :
    (maskedPositions pm).Pairwise (fun a b => rasterIdx a < rasterIdx b) :=
  List.Pairwise.sublist (List.filter_sublist _) pairwise_rasterPositions

theorem nodup_maskedPositions {R C : ℕ} (pm : Fin R → Fin C → Bool) :
    (maskedPositions pm).Nodup :=
  List.Nodup.sublist (List.filter_sublist _) nodup_rasterPositions

theorem length_maskedPositions {R C : ℕ} (pm : Fin R → Fin C → Bool) :
    (maskedPositions pm).length =
      (Finset.univ.filter (fun rc : Fin R × Fin C => pm rc.1 rc.2 = true)).card := by
  classical
  have hnd := nodup_maskedPositions pm
  rw [← List.toFinset_card_of_nodup hnd]
  congr 1
  ext rc
  simp [List.mem_toFinset, mem_maskedPositions, Finset.mem_filter]

/-- C5: when no band selection is supplied, the selection defaults to all
band indices except the highest-indexed one, in ascending order; for a
4-band reference image it is exactly `(0, 1, 2)`, and the extracted sample
has `total − 1` rows.  The pipeline with `bands_to_use = none` returns
exactly this default selection. -/
theorem default_band_selection (nbands : ℕ) :
    List.Sorted (· < ·) (default_bands nbands) ∧
    (∀ i : ℕ, i ∈ default_bands nbands ↔ i < nbands ∧ i ≠ nbands - 1) ∧
    (default_bands nbands).length = nbands - 1 ∧
    default_bands 4 = [0, 1, 2] ∧
    (∀ {R C : ℕ} (ref : ℕ → Fin R → Fin C → ℚ) (pm : Fin R → Fin C → Bool),
      (sample_values ref (default_bands nbands) pm).length = nbands - 1) ∧
    (∀ {R C : ℕ} (ref : ℕ → Fin R → Fin C → ℚ) (mask_nbands : ℕ)
      (mask : ℕ → Fin R → Fin C → ℤ) (out : List ℕ × List (List ℚ)),
      referencePixels_init nbands ref mask_nbands mask none = Except.ok out →
      out.1 = default_bands nbands) := by
  refine ⟨?_, ?_, ?_, ?_, ?_, ?_⟩
  · simp only [default_bands, List.Sorted]
    exact List.pairwise_lt_range _
  · intro i
    rw [default_bands, List.mem_range]
    omega
  · exact List.length_range _
  · rfl
  · intro R C ref pm
    rw [sample_values, List.length_map, default_bands, List.length_range]
  · intro R C ref mask_nbands mask out h
    rw [referencePixels_init] at h
    cases hg : generate_pixel_mask mask_nbands mask default_lower_range
        default_higher_range with
    | error e => rw [hg] at h; exact absurd h (by simp)
    | ok pm =>
      rw [hg] at h
      by_cases hlen : (maskedPositions pm).length ≤ min_annotated_pixels
      · simp only [hlen, if_true] at h
        exact absurd h (by simp)
      · simp only [hlen, if_false] at h
        cases h
        rfl

theorem default_band_selection_witness :
    (@referencePixels_init 1 101 4 (fun _ _ _ => (10 : ℚ)) 1
        (fun _ _ _ => (255 : ℤ)) none).map Prod.fst = Except.ok [0, 1, 2] := by
  obtain ⟨-, -, -, h4, -, hpipe⟩ := default_band_selection 4
  have hok : @referencePixels_init 1 101 4 (fun _ _ _ => (10 : ℚ)) 1
      (fun _ _ _ => (255 : ℤ)) none =
      Except.ok (default_bands 4,
        sample_values (fun _ _ _ => (10 : ℚ)) (default_bands 4)
          (fun _ _ => decide ((127 : ℤ) < 255))) := rfl
  have h1 := hpipe (fun _ _ _ => (10 : ℚ)) 1 (fun _ _ _ => (255 : ℤ)) _ hok
  rw [hok]
  show Except.ok (default_bands 4, _).1 = _
  rw [h1, h4]

/-- C6: for a 1-band annotation image, a pixel is marked foreground exactly
when its value is strictly greater than 127, whatever the configured RGB
ranges are; membership of the extracted sample positions follows the same
rule. -/
theorem oneband_mask_threshold {R C : ℕ} (mask : ℕ → Fin R → Fin C → ℤ)
    (lower_range higher_range : ℤ × ℤ × ℤ) :
    ∃ pm, generate_pixel_mask 1 mask lower_range higher_range = Except.ok pm ∧
      (∀ r c, pm r c = true ↔ 127 < mask 0 r c) ∧
      (∀ (r : Fin R) (c : Fin C),
        (r, c) ∈ maskedPositions pm ↔ 127 < mask 0 r c) := by
  refine ⟨fun r c => decide ((127 : ℤ) < mask 0 r c), rfl, ?_, ?_⟩
  · intro r c
    exact decide_eq_true_iff
  · intro r c
    rw [mem_maskedPositions]
    exact decide_eq_true_iff

theorem oneband_mask_threshold_witness :
    ∃ pm, generate_pixel_mask 1
        (fun _ _ c => if c.1 = 0 then (127 : ℤ) else 128 :
          ℕ → Fin 1 → Fin 2 → ℤ)
        default_lower_range default_higher_range = Except.ok pm ∧
      pm 0 0 = false ∧ pm 0 1 = true := by
  obtain ⟨pm, hok, hiff, -⟩ := oneband_mask_threshold
    (fun _ _ c => if c.1 = 0 then (127 : ℤ) else 128 : ℕ → Fin 1 → Fin 2 → ℤ)
    default_lower_range default_higher_range
  refine ⟨pm, hok, ?_, ?_⟩
  · have h := hiff 0 0
    simp at h
    simpa using h
  · exact (hiff 0 1).mpr (by norm_num)

/-- C9: calling `calculate_distance` on a model whose statistics were never
computed (fit has not happened, so `self.average`/`self.covariance` are
unset) fails with the not-fitted error for every input image. -/
theorem score_before_fit_fails {bands : List ℕ} {R C : ℕ}
    (m : MahalanobisModel bands) (h : m.fitted = none)
    (image : ℕ → Fin R → Fin C → ℚ) :
    m.calculate_distance image = Except.error ModelError.notFittedError := by
  rw [MahalanobisModel.calculate_distance, h]

theorem score_before_fit_fails_witness :
    (MahalanobisModel.init [0]).calculate_distance
      (fun _ _ _ => (0 : ℚ) : ℕ → Fin 1 → Fin 1 → ℚ) =
      Except.error ModelError.notFittedError :=
  score_before_fit_fails (MahalanobisModel.init [0]) rfl _

/-- The RGB box test exactly as the spec words it (for comparison with the
code): inclusive at the lower bounds, exclusive at the upper bounds. -/
def spec_rgb_box (lower_range higher_range : ℤ × ℤ × ℤ)
    (v0 v1 v2 : ℤ) : Prop :=
  lower_range.1 ≤ v0 ∧ v0 < higher_range.1 ∧
  lower_range.2.1 ≤ v1 ∧ v1 < higher_range.2.1 ∧
  lower_range.2.2 ≤ v2 ∧ v2 < higher_range.2.2

/-- C2: the code compares each of the first three bands strictly against the
lower bounds (`>`; src/color_models.py:45,47,49), not inclusively.  Under the
default ranges, the annotation pixels `(245, 0, 0)` (the claim's example) and
`(255, 0, 0)` (pure red, which the spec's inclusive-lower box
`[245,256)×[0,10)×[0,10)` contains) are both marked background. -/
theorem rgb_mask_lower_bound_strict :
    ∃ pm, generate_pixel_mask 3
        (fun b _ c => if b = 0 then (if c.1 = 0 then 255 else 245) else 0 :
          ℕ → Fin 1 → Fin 2 → ℤ)
        default_lower_range default_higher_range = Except.ok pm ∧
      pm 0 0 = false ∧ pm 0 1 = false ∧
      spec_rgb_box default_lower_range default_higher_range 255 0 0 ∧
      spec_rgb_box default_lower_range default_higher_range 245 0 0 := by
  refine ⟨_, rfl, ?_, ?_, ?_, ?_⟩
  · decide
  · decide
  · refine ⟨by decide, by decide, by decide, by decide, by decide, by decide⟩
  · refine ⟨by decide, by decide, by decide, by decide, by decide, by decide⟩

/-- C3: with a valid annotation band count, `ReferencePixels` initialization
fails with the insufficient-sample error exactly when the number of masked
pixels is at most 100, and otherwise returns the extracted sample itself. -/
theorem insufficient_sample_boundary {R C : ℕ} (ref_nbands : ℕ)
    (ref : ℕ → Fin R → Fin C → ℚ) (mask_nbands : ℕ)
    (mask : ℕ → Fin R → Fin C → ℤ) (bands_to_use : Option (List ℕ))
    (pm : Fin R → Fin C → Bool)
    (hpm : generate_pixel_mask mask_nbands mask default_lower_range
      default_higher_range = Except.ok pm) :
    (referencePixels_init ref_nbands ref mask_nbands mask bands_to_use =
        Except.error ModelError.insufficientSampleError ↔
      (maskedPositions pm).length ≤ 100) ∧
    (100 < (maskedPositions pm).length →
      referencePixels_init ref_nbands ref mask_nbands mask bands_to_use =
        Except.ok (bands_to_use.getD (default_bands ref_nbands),
          sample_values ref (bands_to_use.getD (default_bands ref_nbands)) pm)) := by
  have key : referencePixels_init ref_nbands ref mask_nbands mask bands_to_use =
      (if (maskedPositions pm).length ≤ min_annotated_pixels then
        Except.error ModelError.insufficientSampleError
      else Except.ok (bands_to_use.getD (default_bands ref_nbands),
        sample_values ref (bands_to_use.getD (default_bands ref_nbands)) pm)) := by
    rw [referencePixels_init, hpm]
  rw [key]
  by_cases hlen : (maskedPositions pm).length ≤ min_annotated_pixels
  · rw [if_pos hlen]
    have h100 : (maskedPositions pm).length ≤ 100 := hlen
    exact ⟨⟨fun _ => h100, fun _ => rfl⟩, fun hgt => absurd hgt (by omega)⟩
  · rw [if_neg hlen]
    have h100 : ¬ (maskedPositions pm).length ≤ 100 := hlen
    exact ⟨⟨fun h => absurd h (by simp), fun h => absurd h h100⟩, fun _ => rfl⟩

theorem insufficient_sample_boundary_witness :
    @referencePixels_init 10 10 1 (fun _ _ _ => (10 : ℚ)) 1
        (fun _ _ _ => (255 : ℤ)) none =
      Except.error ModelError.insufficientSampleError ∧
    @referencePixels_init 1 101 1 (fun _ _ _ => (10 : ℚ)) 1
        (fun _ _ _ => (255 : ℤ)) none = Except.ok ([], []) := by
  constructor
  · exact (@insufficient_sample_boundary 10 10 1 (fun _ _ _ => (10 : ℚ)) 1
      (fun _ _ _ => (255 : ℤ)) none (fun _ _ => decide ((127 : ℤ) < 255))
      rfl).1.mpr (by decide)
  · have h := (@insufficient_sample_boundary 1 101 1 (fun _ _ _ => (10 : ℚ)) 1
      (fun _ _ _ => (255 : ℤ)) none (fun _ _ => decide ((127 : ℤ) < 255))
      rfl).2 (by decide)
    rw [h]
    rfl

/-- C7: the extracted sample is a `(B, N)` matrix: it has one row per
selected band, each row has one column per masked pixel, `N` is the number
of true mask cells, the columns run over exactly the masked positions in
strictly increasing raster scan order, and entry `(i, j)` is the reference
value of the `i`-th selected band at the `j`-th masked position. -/
theorem sample_matrix_shape_order {R C : ℕ} (ref : ℕ → Fin R → Fin C → ℚ)
    (bands : List ℕ) (pm : Fin R → Fin C → Bool) :
    (sample_values ref bands pm).length = bands.length ∧
    (∀ row ∈ sample_values ref bands pm,
      row.length = (maskedPositions pm).length) ∧
    (maskedPositions pm).length =
      (Finset.univ.filter (fun rc : Fin R × Fin C => pm rc.1 rc.2 = true)).card ∧
    (∀ rc : Fin R × Fin C, rc ∈ maskedPositions pm ↔ pm rc.1 rc.2 = true) ∧
    (maskedPositions pm).Pairwise (fun a b => rasterIdx a < rasterIdx b) ∧
    (∀ i j : ℕ,
      ((sample_values ref bands pm).get? i).bind (fun row => row.get? j) =
        (bands.get? i).bind (fun b =>
          ((maskedPositions pm).get? j).map (fun rc => ref b rc.1 rc.2))) := by
  refine ⟨?_, ?_, length_maskedPositions pm, mem_maskedPositions pm, pairwise_maskedPositions pm, ?_⟩
  · exact List.length_map _ _
  · intro row hrow
    rw [sample_values] at hrow
    obtain ⟨b, -, rfl⟩ := List.mem_map.mp hrow
    exact List.length_map _ _
  · intro i j
    rw [sample_values, List.get?_map]
    cases hb : bands.get? i with
    | none => rfl
    | some b =>
      simp [List.get?_map]

theorem sample_matrix_shape_order_witness :
    (@sample_values 2 2 (fun b r c => (b : ℚ) * 100 + r.1 * 10 + c.1) [2, 0]
        (fun r c => decide (r.1 = c.1))).length = 2 ∧
    ((@sample_values 2 2 (fun b r c => (b : ℚ) * 100 + r.1 * 10 + c.1) [2, 0]
        (fun r c => decide (r.1 = c.1))).get? 0).bind (fun row => row.get? 1) =
      some 211 := by
  have h := @sample_matrix_shape_order 2 2
    (fun b r c => (b : ℚ) * 100 + r.1 * 10 + c.1) [2, 0]
    (fun r c => decide (r.1 = c.1))
  refine ⟨h.1, ?_⟩
  rw [h.2.2.2.2.2 0 1]
  show some ((2 : ℚ) * 100 + 1 * 10 + 1) = some 211
  norm_num

theorem np_linalg_inv_eq {n : ℕ} (A : Matrix (Fin n) (Fin n) ℚ) :
    np_linalg_inv A = A⁻¹ := by
  rw [np_linalg_inv, Matrix.inv_def, Ring.inverse_eq_inv']

/-- The band-indexed sum computed by `np.sum(diff * (diff @ inv_cov), axis=1)`
is the quadratic form `d ⬝ᵥ (A *ᵥ d)`. -/
theorem quadform_swap {n : ℕ} (d : Fin n → ℚ) (A : Matrix (Fin n) (Fin n) ℚ) :
    ∑ k, d k * (∑ j, d j * A j k) = Matrix.dotProduct d (A.mulVec d) := by
  simp only [Matrix.dotProduct, Matrix.mulVec, Finset.mul_sum]
  rw [Finset.sum_comm]
  exact Finset.sum_congr rfl fun x _ => Finset.sum_congr rfl fun y _ => by ring

theorem mahalanobis_sq_eq_quadform {R C : ℕ} (bands : List ℕ)
    (average : Fin bands.length → ℚ)
    (covariance : Matrix (Fin bands.length) (Fin bands.length) ℚ)
    (image : ℕ → Fin R → Fin C → ℚ) (p : Fin (R * C)) :
    mahalanobis_sq bands average covariance image p =
      Matrix.dotProduct (fun b => image_pixels bands image p b - average b)
        (covariance⁻¹ *ᵥ (fun b => image_pixels bands image p b - average b)) := by
  rw [mahalanobis_sq, ← np_linalg_inv_eq]
  exact quadform_swap _ _

/-- C1: the Mahalanobis distance map has one value per spatial position of
the input, and at pixel `(r, c)` it equals
`sqrt((x − m)ᵀ · Σ⁻¹ · (x − m))`, where `x` is the pixel's vector of values
at the selected bands in selection order, `m` the fitted mean and `Σ` the
fitted (invertible) covariance. -/
theorem mahalanobis_pointwise {R C : ℕ} (bands : List ℕ)
    (average : Fin bands.length → ℚ)
    (covariance : Matrix (Fin bands.length) (Fin bands.length) ℚ)
    (hdet : IsUnit covariance.det)
    (image : ℕ → Fin R → Fin C → ℚ) (i : Fin 1) (r : Fin R) (c : Fin C) :
    mahalanobis_distance_map bands average covariance image i r c =
      Real.sqrt ((Matrix.dotProduct
        (fun b => image (bands.get b) r c - average b)
        (covariance⁻¹ *ᵥ (fun b => image (bands.get b) r c - average b)) : ℚ)) := by
  have hd : (fun b => image_pixels bands image (flatIdx r c) b - average b) =
      (fun b => image (bands.get b) r c - average b) := by
    funext b
    simp only [image_pixels]
    rw [flatRow_flatIdx, flatCol_flatIdx]
  rw [mahalanobis_distance_map]
  congr 1
  norm_cast
  rw [mahalanobis_sq_eq_quadform, hd]

theorem mahalanobis_pointwise_witness :
    @mahalanobis_distance_map 1 1 [0] (fun _ => 1) 1 (fun _ _ _ => (3 : ℚ))
      0 0 0 = 2 := by
  rw [mahalanobis_pointwise [0] (fun _ => 1) 1
    (by rw [Matrix.det_one]; exact isUnit_one) (fun _ _ _ => (3 : ℚ)) 0 0 0]
  rw [inv_one, Matrix.one_mulVec]
  norm_num [Matrix.dotProduct]
  rw [show (4 : ℝ) = 2 ^ 2 by norm_num]
  exact Real.sqrt_sq (by norm_num)

/-- C10: scoring is per-pixel local: if two target images agree at spatial
position `(r, c)` on all selected bands, then both the Mahalanobis map and
the mixture-model map give the same value at `(r, c)`, whatever the fitted
parameters and per-sample scoring function are. -/
theorem scoring_per_pixel_local {R C : ℕ} (bands : List ℕ)
    (average : Fin bands.length → ℚ)
    (covariance : Matrix (Fin bands.length) (Fin bands.length) ℚ)
    (score_samples : (Fin bands.length → ℚ) → ℝ)
    (image1 image2 : ℕ → Fin R → Fin C → ℚ) (r : Fin R) (c : Fin C)
    (hagree : ∀ b ∈ bands, image1 b r c = image2 b r c) :
    (∀ i : Fin 1,
      mahalanobis_distance_map bands average covariance image1 i r c =
        mahalanobis_distance_map bands average covariance image2 i r c) ∧
    (∀ i : Fin 1,
      gmm_distance_map bands score_samples image1 i r c =
        gmm_distance_map bands score_samples image2 i r c) := by
  have hpix : image_pixels bands image1 (flatIdx r c) =
      image_pixels bands image2 (flatIdx r c) := by
    funext b
    simp only [image_pixels]
    rw [flatRow_flatIdx, flatCol_flatIdx]
    exact hagree _ (List.get_mem bands b.1 b.2)
  constructor
  · intro i
    rw [mahalanobis_distance_map, mahalanobis_distance_map]
    simp only [mahalanobis_sq, hpix]
  · intro i
    rw [gmm_distance_map, gmm_distance_map]
    simp only [hpix]

theorem scoring_per_pixel_local_witness :
    (@mahalanobis_distance_map 1 2 [0] (fun _ => 0) 1
        (fun _ _ c => if c.1 = 0 then (5 : ℚ) else 7) 0 0 0 =
      @mahalanobis_distance_map 1 2 [0] (fun _ => 0) 1
        (fun _ _ c => if c.1 = 0 then (5 : ℚ) else 9) 0 0 0) ∧
    (@gmm_distance_map 1 2 [0] (fun _ => (0 : ℝ))
        (fun _ _ c => if c.1 = 0 then (5 : ℚ) else 7) 0 0 0 =
      @gmm_distance_map 1 2 [0] (fun _ => (0 : ℝ))
        (fun _ _ c => if c.1 = 0 then (5 : ℚ) else 9) 0 0 0) := by
  have h := @scoring_per_pixel_local 1 2 [0] (fun _ => 0) 1 (fun _ => (0 : ℝ))
    (fun _ _ c => if c.1 = 0 then (5 : ℚ) else 7)
    (fun _ _ c => if c.1 = 0 then (5 : ℚ) else 9) 0 0
    (by intro b hb; norm_num)
  exact ⟨h.1 0, h.2 0⟩

/-- C8: fitting is invariant under any permutation of the observation
columns of the sample: the permuted sample has the same `np.average` and
`np.cov`, and hence the same Mahalanobis distance map on every image. -/
theorem fit_permutation_invariant {N : ℕ} (bands : List ℕ)
    (v : Fin bands.length → Fin N → ℚ) (σ : Equiv.Perm (Fin N)) :
    np_average (fun i p => v i (σ p)) = np_average v ∧
    np_cov (fun i p => v i (σ p)) = np_cov v ∧
    ∀ {R C : ℕ} (image : ℕ → Fin R → Fin C → ℚ) (i : Fin 1) (r : Fin R)
      (c : Fin C),
      mahalanobis_distance_map bands (np_average fun i p => v i (σ p))
          (np_cov fun i p => v i (σ p)) image i r c =
        mahalanobis_distance_map bands (np_average v) (np_cov v) image i r c := by
  have havg : np_average (fun i p => v i (σ p)) = np_average v := by
    funext i
    simp only [np_average]
    rw [Equiv.sum_comp σ (fun p => v i p)]
  have hcov : np_cov (fun i p => v i (σ p)) = np_cov v := by
    ext i j
    simp only [np_cov, Matrix.of_apply, havg]
    congr 1
    exact Equiv.sum_comp σ
      (fun p => (v i p - np_average v i) * (v j p - np_average v j))
  refine ⟨havg, hcov, ?_⟩
  intro R C image i r c
  rw [havg, hcov]

/-- The centered data matrix: row `i`, column `p` holds
`v i p - np_average v i`. -/
def centered {B N : ℕ} (v : Fin B → Fin N → ℚ) : Matrix (Fin B) (Fin N) ℚ :=
  Matrix.of fun i p => v i p - np_average v i

theorem np_cov_eq_smul {B N : ℕ} (v : Fin B → Fin N → ℚ) :
    np_cov v = ((N : ℚ) - 1)⁻¹ • (centered v * (centered v)ᵀ) := by
  ext i j
  simp only [np_cov, Matrix.of_apply, Matrix.smul_apply, Matrix.mul_apply,
    Matrix.transpose_apply, centered, smul_eq_mul]
  rw [div_eq_mul_inv, mul_comm]

/-- The sample covariance matrix is positive semidefinite (for `N ≥ 2`):
every quadratic form value is non-negative. -/
theorem cov_quadform_nonneg {B N : ℕ} (v : Fin B → Fin N → ℚ) (hN : 2 ≤ N)
    (y : Fin B → ℚ) : 0 ≤ Matrix.dotProduct y ((np_cov v) *ᵥ y) := by
  rw [np_cov_eq_smul, Matrix.smul_mulVec_assoc, Matrix.dotProduct_smul,
    smul_eq_mul]
  apply mul_nonneg
  · have h2 : (2 : ℚ) ≤ (N : ℚ) := by exact_mod_cast hN
    exact inv_nonneg.mpr (by linarith)
  · rw [← Matrix.mulVec_mulVec, Matrix.dotProduct_mulVec,
      ← Matrix.mulVec_transpose, Matrix.dotProduct]
    exact Finset.sum_nonneg fun p _ => mul_self_nonneg _

theorem inv_cov_quadform_nonneg {B N : ℕ} (v : Fin B → Fin N → ℚ) (hN : 2 ≤ N)
    (hdet : IsUnit (np_cov v).det) (d : Fin B → ℚ) :
    0 ≤ Matrix.dotProduct d ((np_cov v)⁻¹ *ᵥ d) := by
  have hd : (np_cov v) *ᵥ ((np_cov v)⁻¹ *ᵥ d) = d := by
    rw [Matrix.mulVec_mulVec, Matrix.mul_nonsing_inv _ hdet, Matrix.one_mulVec]
  have h := cov_quadform_nonneg v hN ((np_cov v)⁻¹ *ᵥ d)
  rw [hd, Matrix.dotProduct_comm] at h
  exact h

/-- C4: for a model fitted on a sample of at least two observations with
invertible sample covariance, the pre-`sqrt` quadratic form is non-negative
at every pixel, the Mahalanobis distance map is non-negative at every pixel
of every image, and the distance is exactly `0` at a pixel whose
selected-band vector equals the fitted mean. -/
theorem mahalanobis_nonneg_zero_at_mean {R C N : ℕ} (bands : List ℕ)
    (v : Fin bands.length → Fin N → ℚ) (hN : 2 ≤ N)
    (hdet : IsUnit (np_cov v).det)
    (image : ℕ → Fin R → Fin C → ℚ) :
    (∀ p : Fin (R * C),
      0 ≤ mahalanobis_sq bands (np_average v) (np_cov v) image p) ∧
    (∀ (i : Fin 1) (r : Fin R) (c : Fin C),
      0 ≤ mahalanobis_distance_map bands (np_average v) (np_cov v) image i r c) ∧
    (∀ (i : Fin 1) (r : Fin R) (c : Fin C),
      (∀ b, image (bands.get b) r c = np_average v b) →
      mahalanobis_distance_map bands (np_average v) (np_cov v) image i r c
        = 0) := by
  refine ⟨?_, ?_, ?_⟩
  · intro p
    rw [mahalanobis_sq_eq_quadform]
    exact inv_cov_quadform_nonneg v hN hdet _
  · intro i r c
    exact Real.sqrt_nonneg _
  · intro i r c hmean
    rw [mahalanobis_distance_map]
    have hzero : mahalanobis_sq bands (np_average v) (np_cov v) image
        (flatIdx r c) = 0 := by
      rw [mahalanobis_sq_eq_quadform]
      have hd0 : (fun b =>
          image_pixels bands image (flatIdx r c) b - np_average v b) =
          (0 : Fin bands.length → ℚ) := by
        funext b
        simp only [image_pixels]
        rw [flatRow_flatIdx, flatCol_flatIdx, hmean b]
        exact sub_self _
      rw [hd0, Matrix.zero_dotProduct]
    rw [hzero]
    simp

/-- A concrete one-band, two-observation sample (values 0 and 2) used to
witness the fitted-model theorems. -/
def sampleW : Fin ([0] : List ℕ).length → Fin 2 → ℚ :=
  fun _ p => if p.1 = 0 then 0 else 2

theorem np_cov_sampleW : np_cov sampleW (0 : Fin 1) (0 : Fin 1) = 2 := by
  simp only [np_cov, np_average, sampleW, Matrix.of_apply, Fin.sum_univ_two]
  norm_num

theorem mahalanobis_nonneg_zero_at_mean_witness :
    (0 ≤ @mahalanobis_distance_map 1 1 [0]
        (np_average sampleW) (np_cov sampleW) (fun _ _ _ => 1) 0 0 0) ∧
    @mahalanobis_distance_map 1 1 [0]
        (np_average sampleW) (np_cov sampleW) (fun _ _ _ => 1) 0 0 0 = 0 := by
  have hdet : IsUnit (np_cov sampleW).det := by
    have h1 : (np_cov sampleW).det = np_cov sampleW (0 : Fin 1) (0 : Fin 1) :=
      Matrix.det_fin_one _
    rw [h1, np_cov_sampleW]
    exact isUnit_iff_ne_zero.mpr (by norm_num)
  have h := @mahalanobis_nonneg_zero_at_mean 1 1 2 [0] sampleW
    (by norm_num) hdet (fun _ _ _ => 1)
  refine ⟨h.2.1 0 0 0, h.2.2 0 0 0 ?_⟩
  intro b
  show (1 : ℚ) = np_average sampleW b
  simp only [np_average, sampleW, Fin.sum_univ_two]
  norm_num
